import Mathlib

/-!
Verification of the onyx configuration-composition core (src/project.rs).

Rust HashMaps are modelled as association lists (`AList`); because every
merge loop in the source acts key-by-key and independently of iteration
order, all map-level theorems are stated through `lookupA`.  Rust `Result`
is modelled as `Except`; the `?` operator is an explicit match on the
error case.  `String::to_lowercase` is modelled as per-character
lowercasing.
-/

namespace Onyx

/-- Association list with string keys, modelling std::collections::HashMap. -/
abbrev AList (α : Type) := List (String × α)

/-- First-occurrence lookup, modelling HashMap::get / indexing. -/
def lookupA {α : Type} : AList α → String → Option α
  | [], _ => none
  | kv :: rest, k => if kv.1 = k then some kv.2 else lookupA rest k

/-- Key membership, modelling HashMap::contains_key. -/
def containsA {α : Type} (m : AList α) (k : String) : Bool :=
  (lookupA m k).isSome

/-- Insert-or-overwrite, modelling HashMap::insert (replaces the first
occurrence of the key, appends when the key is absent). -/
def insertA {α : Type} : AList α → String → α → AList α
  | [], k, v => [(k, v)]
  | kv :: rest, k, v => if kv.1 = k then (k, v) :: rest else kv :: insertA rest k v

/-- The keys of an association list. -/
def keysA {α : Type} (m : AList α) : List String :=
  m.map (fun kv => kv.1)

/-- Left-biased choice on options (used to phrase right-biased map union:
the second argument is the fallback). -/
def orO {α : Type} : Option α → Option α → Option α
  | some v, _ => some v
  | none, b => b

/-- Early-exit monadic map over a list, modelling
`iter().map(..).collect::<Result<Vec<_>>>()`. -/
def mapME {ε α β : Type} (f : α → Except ε β) : List α → Except ε (List β)
  | [] => .ok []
  | a :: as => match f a with
    | .error e => .error e
    | .ok b => match mapME f as with
      | .error e => .error e
      | .ok bs => .ok (b :: bs)

/-- Early-exit fold over a list, modelling a Rust `for` loop whose body may
return early with `?`. -/
def foldME {ε σ α : Type} (f : σ → α → Except ε σ) : σ → List α → Except ε σ
  | s, [] => .ok s
  | s, a :: as => match f s a with
    | .error e => .error e
    | .ok s' => foldME f s' as

/-- The result (`Except.ok`) test. -/
def isOkE {ε α : Type} : Except ε α → Bool
  | .ok _ => true
  | .error _ => false

/-- Forget the error of an `Except`, modelling `Result::ok()`. -/
def toOptE {ε α : Type} : Except ε α → Option α
  | .ok a => some a
  | .error _ => none

instance {ε α : Type} [DecidableEq ε] [DecidableEq α] : DecidableEq (Except ε α) := fun x y =>
  match x, y with
  | .ok a, .ok b =>
    if h : a = b then .isTrue (by rw [h])
    else .isFalse (fun hc => h (Except.ok.inj hc))
  | .ok _, .error _ => .isFalse (fun hc => Except.noConfusion hc)
  | .error _, .ok _ => .isFalse (fun hc => Except.noConfusion hc)
  | .error e₁, .error e₂ =>
    if h : e₁ = e₂ then .isTrue (by rw [h])
    else .isFalse (fun hc => h (Except.error.inj hc))

/-- Per-character lowercasing, modelling `str::to_lowercase`. -/
def lowerStr (s : String) : String :=
  ⟨s.data.map Char.toLower⟩

/-- The errors of the core (enum ProjectError), restricted to the merge and
runner kinds the claims are about; `InvalidRunnerEntry` models the
`ensure!(.., "Invalid default runner entry: {}", entry.long)` failure. -/
inductive ProjectError : Type
  | IncompatibleConfigType (key : String)
  | InvalidRunnerEntry (name : String)
deriving DecidableEq

/-- A scalar configuration value stored in its textual form
(struct ConfigValue(String)). -/
structure ConfigValue : Type where
  val : String
deriving DecidableEq

/-- A configuration node: a flat map of scalars or a single scalar
(enum Config). -/
inductive Config : Type
  | Map (m : AList ConfigValue)
  | Single (v : ConfigValue)
deriving DecidableEq

/-- An application: an optional map from section name to Config
(struct Application). -/
structure Application : Type where
  config : Option (AList Config)
deriving DecidableEq

/-- A runner alias-table entry (struct RunnerEntry). -/
structure RunnerEntry : Type where
  long : String
  short : String
deriving DecidableEq

/-- The runner definition (struct Runner). -/
structure Runner : Type where
  valid : List RunnerEntry
  default : List RunnerEntry
deriving DecidableEq

/-- The runner part an include may carry (struct RunnerInclude). -/
structure RunnerInclude : Type where
  default : List RunnerEntry
deriving DecidableEq

/-- An include document (struct ProjectInclude). -/
structure ProjectInclude : Type where
  app : Application
  apps : Option (AList Application)
  runner : Option RunnerInclude
deriving DecidableEq

/-- The project language enum. -/
inductive Language : Type
  | Elixir
  | Rust
deriving DecidableEq

/-- The container-mode enum. -/
inductive ContainerMode : Type
  | None
  | Docker
  | DockerCompose
deriving DecidableEq

/-- The root project document (struct Project); the Rust field `include`
(a Lean keyword) is rendered `includePaths`. -/
structure Project : Type where
  name : String
  description : Option String
  language : Option Language
  container : ContainerMode
  umbrella : Bool
  includePaths : List String
  included : Option (List ProjectInclude)
  app : Application
  apps : Option (AList Application)
  runner : Runner
deriving DecidableEq

/-- RunnerEntry::from_str / From for str: both aliases are set to the
given string. -/
def RunnerEntry.from_str (s : String) : RunnerEntry :=
  ⟨s, s⟩

/-- Runner::validate_entry: find the first entry of `valid` whose long
alias matches the entry's long alias, or whose short alias matches the
entry's short alias, case-insensitively; fail naming the entry's long
alias when none matches. -/
def Runner.validate_entry (r : Runner) (entry : RunnerEntry) : Except ProjectError RunnerEntry :=
  match r.valid.find? (fun v =>
      lowerStr entry.long == lowerStr v.long || lowerStr entry.short == lowerStr v.short) with
  | some v => .ok v
  | none => .error (.InvalidRunnerEntry entry.long)

/-- Runner::validate_and_normalize: replace every default entry by its
canonical match in `valid`, failing on the first entry with no match;
`valid` is left unchanged and `default` is only replaced on success. -/
def Runner.validate_and_normalize (r : Runner) : Except ProjectError Runner :=
  match mapME (fun d => r.validate_entry d) r.default with
  | .error e => .error e
  | .ok d => .ok { r with default := d }

/-- The name part of a resolution token: a leading '+' or '-' sigil is
stripped (Runner::entries_to_run, arg classification; the sigils are
one-byte characters, so `&arg[1..]` is dropping the first character). -/
def tokenName (arg : String) : String :=
  match arg.data with
  | '+' :: rest => ⟨rest⟩
  | '-' :: rest => ⟨rest⟩
  | _ => arg

/-- The sign of a resolution token: '-' for an explicit remove, '+' for an
explicit or implicit add (Runner::entries_to_run, arg classification). -/
def tokenSign (arg : String) : Char :=
  match arg.data with
  | '+' :: _ => '+'
  | '-' :: _ => '-'
  | _ => '+'

/-- Runner::entries_to_run: classify and validate every token (failing on
the first invalid one), then emit the long aliases of `default` followed
by the canonical add entries, dropping every entry listed as a canonical
remove entry. -/
def Runner.entries_to_run (r : Runner) (args : List String) : Except ProjectError (List String) :=
  match mapME (fun arg =>
      match r.validate_entry (RunnerEntry.from_str (tokenName arg)) with
      | .error e => .error e
      | .ok entry => .ok (tokenSign arg, entry)) args with
  | .error e => .error e
  | .ok processed =>
    let to_add := (processed.filter (fun item => item.1 == '+')).map (fun item => item.2)
    let to_remove := (processed.filter (fun item => item.1 == '-')).map (fun item => item.2)
    .ok (((r.default ++ to_add).filter (fun arg => !to_remove.contains arg)).map
      (fun arg => arg.long))

/-- Right-biased bulk insertion: every pair of `o` is inserted into `m`
(the Map/Map loop of Config::merge). -/
def insertAll {α : Type} (m o : AList α) : AList α :=
  o.foldl (fun acc kv => insertA acc kv.1 kv.2) m

/-- Config::merge: Map with Map is a right-biased shallow union, Single
with Single keeps the other side, a variant mismatch fails with
IncompatibleConfigType carrying the key the merge was attempted under. -/
def Config.merge (self other : Config) (key : String) : Except ProjectError Config :=
  match other with
  | .Map o =>
    match self with
    | .Map m => .ok (.Map (insertAll m o))
    | .Single _ => .error (.IncompatibleConfigType key)
  | .Single o =>
    match self with
    | .Map _ => .error (.IncompatibleConfigType key)
    | .Single _ => .ok (.Single o)

/-- The shared per-key merge loop: for every pair of `oc`, merge into the
existing value under that key with `f` when the key is present, insert the
pair when it is absent (the loops of Application::merge and of the `apps`
arm of Project::merge). -/
def mergeByKey {α : Type} (f : String → α → α → Except ProjectError α)
    (m : AList α) : AList α → Except ProjectError (AList α)
  | [] => .ok m
  | kv :: rest =>
    match lookupA m kv.1 with
    | some existing =>
      match f kv.1 existing kv.2 with
      | .error e => .error e
      | .ok v => mergeByKey f (insertA m kv.1 v) rest
    | none => mergeByKey f (insertA m kv.1 kv.2) rest

/-- Application::merge: nothing to do when the other side has no config;
adopt the other side's config wholesale when this side has none; otherwise
merge key by key, each collision going through Config::merge under that
key. -/
def Application.merge (self other : Application) : Except ProjectError Application :=
  match other.config with
  | none => .ok self
  | some config =>
    match self.config with
    | some m =>
      match mergeByKey (fun key sv ov => Config.merge sv ov key) m config with
      | .error e => .error e
      | .ok mc => .ok ⟨some mc⟩
    | none => .ok ⟨some config⟩

/-- The post-state of Config::merge taken as a `&mut self` method: the
Rust body computes `merged` first and assigns `*self = merged` only after
every fallible step, so an error leaves the receiver at its original
value. -/
def Config.mergePost (self other : Config) (key : String) : Config :=
  match Config.merge self other key with
  | .ok c => c
  | .error _ => self

/-- The post-state of Application::merge taken as a `&mut self` method:
the assignment to `self.config` happens only after the whole block
completed, and the `?` inside the block returns before it, so an error
leaves the receiver at its original value. -/
def Application.mergePost (self other : Application) : Application :=
  match Application.merge self other with
  | .ok a => a
  | .error _ => self

/-- One step of the `apps` arm of Project::merge: while the accumulator is
absent it is (re)set to the include's `apps`; once present, an include
declaring `apps` is merged into it key by key through Application::merge,
and an include without `apps` leaves it alone. -/
def appsStep (acc : Option (AList Application)) (inc : ProjectInclude) :
    Except ProjectError (Option (AList Application)) :=
  match acc with
  | some apps =>
    match inc.apps with
    | some incApps =>
      match mergeByKey (fun _ a b => Application.merge a b) apps incApps with
      | .error e => .error e
      | .ok m => .ok (some m)
    | none => .ok (some apps)
  | none => .ok inc.apps

/-- The runner `default` list chosen by Project::merge before
normalization: the `default` of the first include, walking the includes in
reverse file order, that declares a runner; the root's own `default`
otherwise. -/
def chosenDefault (self : Project) : List RunnerEntry :=
  match self.included with
  | some included =>
    match included.reverse.findSome? (fun inc => inc.runner) with
    | some ri => ri.default
    | none => self.runner.default
  | none => self.runner.default

/-- Project::merge: fold the root's `app` with every include's `app` in
file order, fold the `apps` map with `appsStep` in file order, pick the
runner default by last-declaring-include-wins, keep `valid` from the root,
normalize the composed runner, clear `include`/`included`, and carry the
remaining root fields unchanged. -/
def Project.merge (self : Project) : Except ProjectError Project :=
  match (match self.included with
    | some included =>
      foldME (fun (acc : Application) (inc : ProjectInclude) => acc.merge inc.app)
        self.app included
    | none => .ok self.app) with
  | .error e => .error e
  | .ok app =>
    match (match self.included with
      | some included => foldME appsStep self.apps included
      | none => .ok self.apps) with
    | .error e => .error e
    | .ok apps =>
      match Runner.validate_and_normalize ⟨self.runner.valid, chosenDefault self⟩ with
      | .error e => .error e
      | .ok runner =>
        .ok { name := self.name
              description := self.description
              language := self.language
              container := self.container
              umbrella := self.umbrella
              includePaths := []
              included := none
              app := app
              apps := apps
              runner := runner }

/-- The scalars the ConfigValue deserialization visitor accepts: strings,
signed integers (visit_i8..visit_i64), unsigned integers
(visit_u8..visit_u64), floats (represented by their Display string, since
only that string is retained), and booleans. -/
inductive Scalar : Type
  | SStr (s : String)
  | SInt (n : Int)
  | SUInt (n : Nat)
  | SFloat (repr : String)
  | SBool (b : Bool)
deriving DecidableEq

/-- The `to_string()` form each visitor method stores. -/
def Scalar.to_string : Scalar → String
  | .SStr s => s
  | .SInt n => toString n
  | .SUInt n => toString n
  | .SFloat r => r
  | .SBool b => if b then "true" else "false"

/-- Deserialize for ConfigValue: every scalar is accepted and its string
form stored; no visitor method ever fails. -/
def ConfigValue.deserialize (s : Scalar) : Except String ConfigValue :=
  .ok ⟨s.to_string⟩

/-- The value of a nonempty all-digit character list. -/
def digitsVal (cs : List Char) : Option Nat :=
  if cs = [] then none
  else if cs.all Char.isDigit then
    some (cs.foldl (fun a c => a * 10 + (c.toNat - 48)) 0)
  else none

/-- Rust `str::parse::<u64>`: an optional '+' sign, then decimal digits,
failing on overflow past 2^64 - 1. -/
def parse_u64 (s : String) : Option Nat :=
  let cs := match s.toList with
    | '+' :: rest => rest
    | cs => cs
  match digitsVal cs with
  | some v => if v < 2 ^ 64 then some v else none
  | none => none

/-- Rust `str::parse::<i64>`: an optional sign, then decimal digits,
failing outside [-2^63, 2^63 - 1]. -/
def parse_i64 (s : String) : Option Int :=
  match s.toList with
  | '+' :: rest =>
    match digitsVal rest with
    | some v => if (v : Int) ≤ 2 ^ 63 - 1 then some (v : Int) else none
    | none => none
  | '-' :: rest =>
    match digitsVal rest with
    | some v => if (v : Int) ≤ 2 ^ 63 then some (-(v : Int)) else none
    | none => none
  | cs =>
    match digitsVal cs with
    | some v => if (v : Int) ≤ 2 ^ 63 - 1 then some (v : Int) else none
    | none => none

/-- Rust `str::parse::<bool>`: exactly "true" or "false". -/
def parse_bool (s : String) : Option Bool :=
  if s = "true" then some true
  else if s = "false" then some false
  else none

/-- Leading decimal digits of a character list, and the rest. -/
def spanDigits (cs : List Char) : List Char × List Char :=
  (cs.takeWhile Char.isDigit, cs.dropWhile Char.isDigit)

/-- The exponent tail of the Rust f64 grammar: empty, or 'e'/'E', an
optional sign, and at least one digit. -/
def f64ExpTail (cs : List Char) : Bool :=
  match cs with
  | [] => true
  | e :: rest =>
    if e == 'e' || e == 'E' then
      let rest' := match rest with
        | c :: r => if c == '+' || c == '-' then r else c :: r
        | [] => []
      !rest'.isEmpty && rest'.all Char.isDigit
    else false

/-- The mantissa-and-exponent part of the Rust f64 grammar: digits with an
optional fraction, or a fraction alone, followed by an optional
exponent. -/
def f64Body (cs : List Char) : Bool :=
  let (d1, rest) := spanDigits cs
  match rest with
  | '.' :: rest2 =>
    let (d2, rest3) := spanDigits rest2
    (!d1.isEmpty || !d2.isEmpty) && f64ExpTail rest3
  | _ => !d1.isEmpty && f64ExpTail rest

/-- Rust `str::parse::<f64>` as a recognizer: an optional sign, then
"inf", "infinity" or "nan" (case-insensitively) or a decimal number with
optional fraction and exponent.  Only acceptance is modelled; the numeric
value of the float is irrelevant to serialization, which re-emits the
parsed number. -/
def parses_f64 (s : String) : Bool :=
  let cs := match s.toList with
    | c :: r => if c == '+' || c == '-' then r else c :: r
    | [] => []
  let lower := cs.map Char.toLower
  lower == "inf".toList || lower == "infinity".toList || lower == "nan".toList || f64Body cs

/-- The value a serializer is handed for a ConfigValue: the f64 case keeps
the source string, standing for the parsed float it re-emits. -/
inductive SerOutput : Type
  | U64 (n : Nat)
  | I64 (n : Int)
  | F64 (repr : String)
  | Bool (b : Bool)
  | Str (s : String)
deriving DecidableEq

/-- Serialize for ConfigValue: trial-parse the stored string as u64, then
i64, then f64, then bool, in that order, and fall back to emitting the
string itself. -/
def ConfigValue.serialize (v : ConfigValue) : SerOutput :=
  match parse_u64 v.val with
  | some n => .U64 n
  | none =>
    match parse_i64 v.val with
    | some n => .I64 n
    | none =>
      if parses_f64 v.val then .F64 v.val
      else
        match parse_bool v.val with
        | some b => .Bool b
        | none => .Str v.val


/-- First element of a list satisfying a boolean predicate (used to name
the first failing entry or token of a fail-fast loop). -/
def findE {α : Type} (p : α → Bool) : List α → Option α
  | [] => none
  | a :: as => if p a then some a else findE p as

/-- The canonical entry a token resolves to (its match in `valid`); the
fallback value is irrelevant and only reached for invalid tokens. -/
def canonOf (r : Runner) (a : String) : RunnerEntry :=
  match r.validate_entry (RunnerEntry.from_str (tokenName a)) with
  | .ok e => e
  | .error _ => RunnerEntry.from_str (tokenName a)

/-- The canonical entries of the add-tokens ('+name' and bare 'name'), in
token order. -/
def addsOf (r : Runner) (args : List String) : List RunnerEntry :=
  ((args.map (fun a => (tokenSign a, canonOf r a))).filter
    (fun item => item.1 == '+')).map (fun item => item.2)

/-- The canonical entries of the remove-tokens ('-name'), in token
order. -/
def removesOf (r : Runner) (args : List String) : List RunnerEntry :=
  ((args.map (fun a => (tokenSign a, canonOf r a))).filter
    (fun item => item.1 == '-')).map (fun item => item.2)

theorem keysA_cons {α : Type} (kv : String × α) (rest : AList α) :
    keysA (kv :: rest) = kv.1 :: keysA rest := rfl

theorem lookupA_insertA {α : Type} (m : AList α) (k : String) (v : α) (k' : String) :
    lookupA (insertA m k v) k' = if k' = k then some v else lookupA m k' := by
  induction m with
  | nil =>
    by_cases h : k' = k
    · subst h
      simp [insertA, lookupA]
    · have h' : ¬ k = k' := fun hh => h hh.symm
      simp [insertA, lookupA, h, h']
  | cons kv rest ih =>
    by_cases h1 : kv.1 = k
    · by_cases h2 : k' = k
      · subst h2
        simp [insertA, lookupA, h1]
      · have h2' : ¬ k = k' := fun hh => h2 hh.symm
        have h3 : ¬ kv.1 = k' := fun hh => h2 (hh.symm.trans h1)
        simp [insertA, lookupA, h1, h2, h2', h3]
    · by_cases h2 : kv.1 = k'
      · have hk : ¬ k' = k := fun hh => h1 (h2.trans hh)
        simp [insertA, lookupA, h1, h2, hk]
      · simp [insertA, lookupA, h1, h2, ih]

theorem lookupA_eq_none_of_not_mem {α : Type} (m : AList α) (k : String)
    (h : k ∉ keysA m) : lookupA m k = none := by
  induction m with
  | nil => rfl
  | cons kv rest ih =>
    rw [keysA_cons, List.mem_cons] at h
    push_neg at h
    simp only [lookupA, if_neg (fun hh : kv.1 = k => h.1 hh.symm)]
    exact ih h.2

theorem mem_keysA_of_lookupA {α : Type} (m : AList α) (k : String) (v : α)
    (h : lookupA m k = some v) : k ∈ keysA m := by
  induction m with
  | nil => exact absurd h (by simp [lookupA])
  | cons kv rest ih =>
    rw [keysA_cons, List.mem_cons]
    by_cases h1 : kv.1 = k
    · exact Or.inl h1.symm
    · simp only [lookupA, if_neg h1] at h
      exact Or.inr (ih h)

theorem insertAll_cons {α : Type} (m : AList α) (kv : String × α) (rest : AList α) :
    insertAll m (kv :: rest) = insertAll (insertA m kv.1 kv.2) rest := rfl

theorem lookupA_insertAll {α : Type} (o : AList α) (m : AList α) (k : String)
    (ho : (keysA o).Nodup) :
    lookupA (insertAll m o) k = orO (lookupA o k) (lookupA m k) := by
  induction o generalizing m with
  | nil => rfl
  | cons kv rest ih =>
    rw [keysA_cons, List.nodup_cons] at ho
    rw [insertAll_cons, ih _ ho.2]
    by_cases h : k = kv.1
    · have hnotin : k ∉ keysA rest := by rw [h]; exact ho.1
      rw [lookupA_eq_none_of_not_mem rest k hnotin]
      simp [orO, lookupA, lookupA_insertA, h]
    · have hne : ¬ kv.1 = k := fun hh => h hh.symm
      simp [orO, lookupA, lookupA_insertA, h, hne]

theorem mergeByKey_nil {α : Type} (f : String → α → α → Except ProjectError α) (m : AList α) :
    mergeByKey f m [] = .ok m := rfl

theorem mergeByKey_cons {α : Type} (f : String → α → α → Except ProjectError α)
    (m : AList α) (kv : String × α) (rest : AList α) :
    mergeByKey f m (kv :: rest) =
      match lookupA m kv.1 with
      | some existing =>
        match f kv.1 existing kv.2 with
        | .error e => .error e
        | .ok v => mergeByKey f (insertA m kv.1 v) rest
      | none => mergeByKey f (insertA m kv.1 kv.2) rest := rfl

theorem mergeByKey_ok_lookup {α : Type} (f : String → α → α → Except ProjectError α)
    (oc : AList α) :
    ∀ (m mc : AList α), (keysA oc).Nodup → mergeByKey f m oc = .ok mc → ∀ k,
      (lookupA oc k = none → lookupA mc k = lookupA m k) ∧
      (∀ ov, lookupA oc k = some ov → lookupA m k = none → lookupA mc k = some ov) ∧
      (∀ ov sv, lookupA oc k = some ov → lookupA m k = some sv →
        ∃ v, f k sv ov = .ok v ∧ lookupA mc k = some v) := by
  induction oc with
  | nil =>
    intro m mc _ h k
    rw [mergeByKey_nil] at h
    injection h with h
    subst h
    refine ⟨fun _ => rfl, ?_, ?_⟩
    · intro ov hov
      exact absurd hov (by simp [lookupA])
    · intro ov sv hov _
      exact absurd hov (by simp [lookupA])
  | cons kv rest ih =>
    intro m mc ho h k
    rw [keysA_cons, List.nodup_cons] at ho
    rw [mergeByKey_cons] at h
    have main : ∃ v', mergeByKey f (insertA m kv.1 v') rest = .ok mc ∧
        ((lookupA m kv.1 = none ∧ v' = kv.2) ∨
         (∃ sv, lookupA m kv.1 = some sv ∧ f kv.1 sv kv.2 = .ok v')) := by
      split at h
      · rename_i existing heq
        split at h
        · exact Except.noConfusion h
        · rename_i v hfv
          exact ⟨v, h, Or.inr ⟨existing, heq, hfv⟩⟩
      · rename_i heq
        exact ⟨kv.2, h, Or.inl ⟨heq, rfl⟩⟩
    obtain ⟨v', hrec, hcase⟩ := main
    have hih := ih (insertA m kv.1 v') mc ho.2 hrec
    by_cases hk : k = kv.1
    · have hrestk : lookupA rest k = none := by
        refine lookupA_eq_none_of_not_mem rest k ?_
        rw [hk]
        exact ho.1
      have hock : lookupA (kv :: rest) k = some kv.2 := by
        simp only [lookupA, if_pos hk.symm]
      have hmck : lookupA mc k = some v' := by
        have hmc := (hih k).1 hrestk
        rw [lookupA_insertA, if_pos hk] at hmc
        exact hmc
      refine ⟨?_, ?_, ?_⟩
      · intro hnone
        rw [hock] at hnone
        cases hnone
      · intro ov hov hm
        rw [hock] at hov
        injection hov with hov
        subst hov
        rcases hcase with ⟨_, hv⟩ | ⟨sv, hsome, _⟩
        · rw [hmck, hv]
        · rw [hk] at hm
          rw [hm] at hsome
          cases hsome
      · intro ov sv hov hsv
        rw [hock] at hov
        injection hov with hov
        subst hov
        rcases hcase with ⟨hnone, _⟩ | ⟨sv', hsome, hf⟩
        · rw [hk] at hsv
          rw [hsv] at hnone
          cases hnone
        · rw [hk] at hsv
          rw [hsv] at hsome
          injection hsome with hsome
          refine ⟨v', ?_, hmck⟩
          rw [hk, hsome]
          exact hf
    · have hoc : lookupA (kv :: rest) k = lookupA rest k := by
        simp only [lookupA, if_neg (fun hh : kv.1 = k => hk hh.symm)]
      have hins : lookupA (insertA m kv.1 v') k = lookupA m k := by
        rw [lookupA_insertA, if_neg hk]
      have hihk := hih k
      refine ⟨?_, ?_, ?_⟩
      · intro hnone
        rw [hoc] at hnone
        rw [hihk.1 hnone, hins]
      · intro ov hov hm
        rw [hoc] at hov
        refine hihk.2.1 ov hov ?_
        rw [hins]
        exact hm
      · intro ov sv hov hsv
        rw [hoc] at hov
        refine hihk.2.2 ov sv hov ?_
        rw [hins]
        exact hsv

theorem mergeByKey_error {α : Type} (f : String → α → α → Except ProjectError α)
    (oc : AList α) :
    ∀ (m : AList α) (e : ProjectError), (keysA oc).Nodup → mergeByKey f m oc = .error e →
      ∃ k sv ov, lookupA oc k = some ov ∧ lookupA m k = some sv ∧ f k sv ov = .error e := by
  induction oc with
  | nil =>
    intro m e _ h
    rw [mergeByKey_nil] at h
    cases h
  | cons kv rest ih =>
    intro m e ho h
    rw [keysA_cons, List.nodup_cons] at ho
    rw [mergeByKey_cons] at h
    have tail : ∀ m', mergeByKey f m' rest = .error e →
        (∀ k, k ≠ kv.1 → lookupA m' k = lookupA m k) →
        ∃ k sv ov, lookupA (kv :: rest) k = some ov ∧ lookupA m k = some sv ∧
          f k sv ov = .error e := by
      intro m' h' hm'
      obtain ⟨k, sv, ov, h1, h2, h3⟩ := ih m' e ho.2 h'
      have hk : k ≠ kv.1 := by
        intro hh
        exact ho.1 (hh ▸ mem_keysA_of_lookupA rest k ov h1)
      refine ⟨k, sv, ov, ?_, ?_, h3⟩
      · simp only [lookupA, if_neg (fun hh : kv.1 = k => hk hh.symm)]
        exact h1
      · rw [← hm' k hk]
        exact h2
    split at h
    · rename_i existing heq
      split at h
      · rename_i e' hfe
        injection h with h
        subst h
        exact ⟨kv.1, existing, kv.2, by simp [lookupA], heq, hfe⟩
      · rename_i v hfv
        refine tail _ h ?_
        intro k hk
        rw [lookupA_insertA, if_neg hk]
    · rename_i heq
      refine tail _ h ?_
      intro k hk
      rw [lookupA_insertA, if_neg hk]

theorem mapME_ok_of_all {ε α β : Type} (f : α → Except ε β) (l : List α)
    (h : ∀ a ∈ l, isOkE (f a)) :
    mapME f l = .ok (l.filterMap (fun a => toOptE (f a))) := by
  induction l with
  | nil => rfl
  | cons a as ih =>
    have ha := h a (List.mem_cons_self a as)
    cases hfa : f a with
    | error e =>
      rw [hfa] at ha
      exact absurd ha (by simp [isOkE])
    | ok b =>
      have htail := ih (fun x hx => h x (List.mem_cons_of_mem a hx))
      simp only [mapME, hfa, htail, List.filterMap_cons, toOptE]

theorem mapME_error_first {ε α β : Type} (f : α → Except ε β) (l : List α) (a₀ : α)
    (h : findE (fun a => !(isOkE (f a))) l = some a₀) :
    ∃ e, f a₀ = .error e ∧ mapME f l = .error e := by
  induction l with
  | nil => cases h
  | cons a as ih =>
    simp only [findE] at h
    cases hfa : f a with
    | error e =>
      simp [hfa, isOkE] at h
      subst h
      refine ⟨e, hfa, ?_⟩
      simp only [mapME, hfa]
    | ok b =>
      simp [hfa, isOkE] at h
      obtain ⟨e, he, hm⟩ := ih h
      refine ⟨e, he, ?_⟩
      simp only [mapME, hfa, hm]

theorem mapME_id_of {ε α : Type} (f : α → Except ε α) (l : List α)
    (h : ∀ a ∈ l, f a = .ok a) : mapME f l = .ok l := by
  induction l with
  | nil => rfl
  | cons a as ih =>
    have htail := ih (fun x hx => h x (List.mem_cons_of_mem a hx))
    simp only [mapME, h a (List.mem_cons_self a as), htail]

theorem validate_entry_error_eq (r : Runner) (entry : RunnerEntry) (err : ProjectError)
    (h : r.validate_entry entry = .error err) : err = .InvalidRunnerEntry entry.long := by
  unfold Runner.validate_entry at h
  split at h
  · exact Except.noConfusion h
  · injection h with h
    exact h.symm

theorem validate_and_normalize_valid (r r' : Runner)
    (h : r.validate_and_normalize = .ok r') : r'.valid = r.valid := by
  unfold Runner.validate_and_normalize at h
  split at h
  · exact Except.noConfusion h
  · injection h with h
    rw [← h]

theorem project_merge_ok_inv (p q : Project) (h : p.merge = .ok q) :
    ∃ app apps runner,
      (match p.included with
        | some included =>
          foldME (fun (acc : Application) (inc : ProjectInclude) => acc.merge inc.app)
            p.app included
        | none => .ok p.app) = .ok app ∧
      (match p.included with
        | some included => foldME appsStep p.apps included
        | none => .ok p.apps) = .ok apps ∧
      Runner.validate_and_normalize ⟨p.runner.valid, chosenDefault p⟩ = .ok runner ∧
      q = ⟨p.name, p.description, p.language, p.container, p.umbrella, [], none,
        app, apps, runner⟩ := by
  unfold Project.merge at h
  split at h
  · exact Except.noConfusion h
  · rename_i app happ
    split at h
    · exact Except.noConfusion h
    · rename_i apps happs
      split at h
      · exact Except.noConfusion h
      · rename_i runner hrun
        injection h with h
        exact ⟨app, apps, runner, happ, happs, hrun, h.symm⟩

theorem mapME_entries (r : Runner) (args : List String)
    (h : ∀ a ∈ args, isOkE (r.validate_entry (RunnerEntry.from_str (tokenName a)))) :
    mapME (fun arg =>
      match r.validate_entry (RunnerEntry.from_str (tokenName arg)) with
      | .error e => .error e
      | .ok entry => .ok (tokenSign arg, entry)) args
    = .ok (args.map (fun a => (tokenSign a, canonOf r a))) := by
  induction args with
  | nil => rfl
  | cons a as ih =>
    have ha := h a (List.mem_cons_self a as)
    cases hv : r.validate_entry (RunnerEntry.from_str (tokenName a)) with
    | error e =>
      rw [hv] at ha
      exact absurd ha (by simp [isOkE])
    | ok entry =>
      have htail := ih (fun x hx => h x (List.mem_cons_of_mem a hx))
      have hcanon : canonOf r a = entry := by
        unfold canonOf
        rw [hv]
      simp only [mapME, hv, htail, List.map_cons, hcanon]

/-- C1: when every token (after stripping a leading sigil) matches an entry
in `valid`, `entries_to_run` returns the `default` list first in order,
then the canonical entries of the add-tokens in token order, with every
entry equal to a canonical remove entry filtered from the whole
concatenation and no further deduplication; in particular with
valid = [(test, t)] and empty default, ["t"] resolves to ["test"] and
["+t", "-test"] resolves to []. -/
theorem entries_to_run_spec (r : Runner) (args : List String)
    (h : ∀ a ∈ args, isOkE (r.validate_entry (RunnerEntry.from_str (tokenName a)))) :
    r.entries_to_run args =
      .ok (((r.default ++ addsOf r args).filter
        (fun e => !(removesOf r args).contains e)).map (fun e => e.long)) ∧
    (Runner.mk [⟨"test", "t"⟩] []).entries_to_run ["t"] = .ok ["test"] ∧
    (Runner.mk [⟨"test", "t"⟩] []).entries_to_run ["+t", "-test"] = .ok [] := by
  refine ⟨?_, by decide, by decide⟩
  unfold Runner.entries_to_run
  rw [mapME_entries r args h]
  simp only [addsOf, removesOf]

/-- Witness for C1 at a concrete input: a valid token list resolves, and an
entry named both in `default` and as an add appears twice. -/
theorem entries_to_run_spec_witness :
    (∀ a ∈ ["+t", "x"], isOkE ((Runner.mk [⟨"test", "t"⟩, ⟨"x", "x"⟩]
      [⟨"test", "t"⟩]).validate_entry (RunnerEntry.from_str (tokenName a)))) ∧
    (Runner.mk [⟨"test", "t"⟩, ⟨"x", "x"⟩] [⟨"test", "t"⟩]).entries_to_run ["+t", "x"] =
      .ok ["test", "test", "x"] := by
  refine ⟨by decide, ?_⟩
  have h := entries_to_run_spec (Runner.mk [⟨"test", "t"⟩, ⟨"x", "x"⟩] [⟨"test", "t"⟩])
    ["+t", "x"] (by decide)
  rw [h.1]
  decide

/-- C2 counterexample: with the root's `apps` absent and two includes both
declaring `apps`, the effective `apps` contains the keys of both includes,
so it is neither the first declaring include's `apps` taken as a full
replacement nor the last one's taken outright. -/
theorem apps_seed_counterexample :
    (Project.mk "root" none none .None true [] (some
        [⟨⟨none⟩, some [("a", ⟨none⟩)], none⟩, ⟨⟨none⟩, some [("b", ⟨none⟩)], none⟩])
      ⟨none⟩ none ⟨[], []⟩).merge =
    .ok (Project.mk "root" none none .None true [] none
      ⟨none⟩ (some [("a", ⟨none⟩), ("b", ⟨none⟩)]) ⟨[], []⟩) ∧
    (some [("a", (⟨none⟩ : Application)), ("b", ⟨none⟩)] ≠
      (⟨⟨none⟩, some [("a", ⟨none⟩)], none⟩ : ProjectInclude).apps) ∧
    (some [("a", (⟨none⟩ : Application)), ("b", ⟨none⟩)] ≠
      (⟨⟨none⟩, some [("b", ⟨none⟩)], none⟩ : ProjectInclude).apps) :=
  ⟨by decide, by decide, by decide⟩

/-- C2 (amended): the effective `apps` is the fold of `appsStep` over the
includes in file order; while the accumulator is absent the next include's
`apps` is adopted wholesale (so the first declaring include seeds it), and
once present every later include's `apps` is merged into it key by key —
via Application::merge when the key exists and by insertion otherwise;
when the root declares `apps` the fold starts from it, giving the same
per-key merge behaviour. -/
theorem apps_merge_amended (p q : Project) (incs rest : List ProjectInclude)
    (inc : ProjectInclude) (as ias mc : AList Application)
    (ho : (keysA ias).Nodup) :
    (p.included = some incs → p.merge = .ok q →
      foldME appsStep p.apps incs = .ok q.apps) ∧
    (foldME appsStep none (inc :: rest) = foldME appsStep inc.apps rest) ∧
    (inc.apps = some ias →
      foldME appsStep (some as) (inc :: rest) =
        match mergeByKey (fun _ a b => Application.merge a b) as ias with
        | .error e => .error e
        | .ok m => foldME appsStep (some m) rest) ∧
    (mergeByKey (fun _ a b => Application.merge a b) as ias = .ok mc → ∀ k,
      (lookupA ias k = none → lookupA mc k = lookupA as k) ∧
      (∀ ov, lookupA ias k = some ov → lookupA as k = none → lookupA mc k = some ov) ∧
      (∀ ov sv, lookupA ias k = some ov → lookupA as k = some sv →
        ∃ v, Application.merge sv ov = .ok v ∧ lookupA mc k = some v)) := by
  refine ⟨?_, rfl, ?_, ?_⟩
  · intro hinc hm
    obtain ⟨app, apps, runner, _, happs, _, hq⟩ := project_merge_ok_inv p q hm
    rw [hinc] at happs
    rw [hq]
    exact happs
  · intro hinc
    cases hmk : mergeByKey (fun _ a b => Application.merge a b) as ias with
    | error e =>
      have hstep : appsStep (some as) inc = .error e := by
        simp only [appsStep, hinc, hmk]
      simp only [foldME, hstep]
    | ok m =>
      have hstep : appsStep (some as) inc = .ok (some m) := by
        simp only [appsStep, hinc, hmk]
      simp only [foldME, hstep]
  · intro hmk k
    exact mergeByKey_ok_lookup (fun _ a b => Application.merge a b) ias as mc ho hmk k

/-- Witness for C2 (amended) at a concrete input: an absent accumulator is
seeded from the first declaring include. -/
theorem apps_merge_amended_witness :
    (keysA ([] : AList Application)).Nodup ∧
    foldME appsStep none
      [(⟨⟨none⟩, some [("a", ⟨some [("k", Config.Single ⟨"2"⟩)]⟩)], none⟩ : ProjectInclude)] =
      .ok (some [("a", ⟨some [("k", Config.Single ⟨"2"⟩)]⟩)]) := by
  refine ⟨by decide, ?_⟩
  have h := apps_merge_amended
    (Project.mk "x" none none .None false [] none ⟨none⟩ none ⟨[], []⟩)
    (Project.mk "x" none none .None false [] none ⟨none⟩ none ⟨[], []⟩)
    [] []
    ⟨⟨none⟩, some [("a", ⟨some [("k", Config.Single ⟨"2"⟩)]⟩)], none⟩
    [] [] [] (by decide)
  exact h.2.1.trans rfl

/-- C3 counterexample: a single include declares runner default [(t, t)]
against root valid [(test, t)]; the merge succeeds but the effective
default is the canonicalized [(test, t)], not the include's list taken
wholesale. -/
theorem runner_default_counterexample :
    (Project.mk "root" none none .None false []
        (some [⟨⟨none⟩, none, some ⟨[⟨"t", "t"⟩]⟩⟩]) ⟨none⟩ none
        ⟨[⟨"test", "t"⟩], []⟩).merge =
      .ok (Project.mk "root" none none .None false [] none ⟨none⟩ none
        ⟨[⟨"test", "t"⟩], [⟨"test", "t"⟩]⟩) ∧
    ((⟨[⟨"t", "t"⟩]⟩ : RunnerInclude).default ≠ [(⟨"test", "t"⟩ : RunnerEntry)]) :=
  ⟨by decide, by decide⟩

/-- C3 (amended): the effective runner of Project::merge is obtained by
normalizing, against the root's `valid`, the `default` list of the last
include (in file order) that declares a runner — the root's own `default`
when no include declares one — taken wholesale before normalization and
never unioned with earlier defaults; when the chosen list is already
canonical it is returned exactly. -/
theorem runner_default_amended (p q : Project) (incs : List ProjectInclude)
    (ri : RunnerInclude) (h : p.merge = .ok q) :
    Runner.validate_and_normalize ⟨p.runner.valid, chosenDefault p⟩ = .ok q.runner ∧
    (p.included = some incs → incs.reverse.findSome? (fun i => i.runner) = some ri →
      chosenDefault p = ri.default) ∧
    (p.included = some incs → incs.reverse.findSome? (fun i => i.runner) = none →
      chosenDefault p = p.runner.default) ∧
    (p.included = none → chosenDefault p = p.runner.default) ∧
    q.runner.valid = p.runner.valid ∧
    ((∀ d ∈ chosenDefault p,
        (⟨p.runner.valid, chosenDefault p⟩ : Runner).validate_entry d = .ok d) →
      q.runner.default = chosenDefault p) := by
  obtain ⟨app, apps, runner, _, _, hrun, hq⟩ := project_merge_ok_inv p q h
  have hqr : q.runner = runner := by rw [hq]
  refine ⟨?_, ?_, ?_, ?_, ?_, ?_⟩
  · rw [hqr]
    exact hrun
  · intro hinc hfind
    simp only [chosenDefault, hinc, hfind]
  · intro hinc hfind
    simp only [chosenDefault, hinc, hfind]
  · intro hinc
    simp only [chosenDefault, hinc]
  · rw [hqr]
    exact validate_and_normalize_valid ⟨p.runner.valid, chosenDefault p⟩ runner hrun
  · intro hcanon
    have hid : Runner.validate_and_normalize ⟨p.runner.valid, chosenDefault p⟩ =
        .ok ⟨p.runner.valid, chosenDefault p⟩ := by
      unfold Runner.validate_and_normalize
      rw [mapME_id_of _ _ hcanon]
    rw [hid] at hrun
    injection hrun with hrun
    rw [hqr, ← hrun]

/-- Witness for C3 (amended) at a concrete input: the chosen default is the
declaring include's list, and the merge normalizes it. -/
theorem runner_default_amended_witness :
    (Project.mk "r" none none .None false []
        (some [⟨⟨none⟩, none, some ⟨[⟨"t", "t"⟩]⟩⟩]) ⟨none⟩ none
        ⟨[⟨"test", "t"⟩], []⟩).merge =
      .ok (Project.mk "r" none none .None false [] none ⟨none⟩ none
        ⟨[⟨"test", "t"⟩], [⟨"test", "t"⟩]⟩) ∧
    chosenDefault (Project.mk "r" none none .None false []
        (some [⟨⟨none⟩, none, some ⟨[⟨"t", "t"⟩]⟩⟩]) ⟨none⟩ none
        ⟨[⟨"test", "t"⟩], []⟩) = [⟨"t", "t"⟩] := by
  refine ⟨by decide, ?_⟩
  have h := runner_default_amended
    (Project.mk "r" none none .None false []
      (some [⟨⟨none⟩, none, some ⟨[⟨"t", "t"⟩]⟩⟩]) ⟨none⟩ none ⟨[⟨"test", "t"⟩], []⟩)
    (Project.mk "r" none none .None false [] none ⟨none⟩ none
      ⟨[⟨"test", "t"⟩], [⟨"test", "t"⟩]⟩)
    [⟨⟨none⟩, none, some ⟨[⟨"t", "t"⟩]⟩⟩] ⟨[⟨"t", "t"⟩]⟩ (by decide)
  exact h.2.1 rfl rfl

/-- C4: merging two Map configs always succeeds and is a right-biased
shallow union (the other side wins on a collision, keys unique to self are
preserved, nothing is lost — for disjoint key sets this is exactly the
union of both maps); merging two Single configs succeeds with the other
side's value. -/
theorem config_merge_spec (m o : AList ConfigValue) (key k : String) (a b : ConfigValue)
    (ho : (keysA o).Nodup) :
    Config.merge (.Map m) (.Map o) key = .ok (.Map (insertAll m o)) ∧
    lookupA (insertAll m o) k = orO (lookupA o k) (lookupA m k) ∧
    Config.merge (.Single a) (.Single b) key = .ok (.Single b) :=
  ⟨rfl, lookupA_insertAll o m k ho, rfl⟩

/-- Witness for C4 at concrete maps with disjoint keys. -/
theorem config_merge_spec_witness :
    (keysA [("y", (⟨"2"⟩ : ConfigValue))]).Nodup ∧
    Config.merge (.Map [("x", ⟨"1"⟩)]) (.Map [("y", ⟨"2"⟩)]) "k" =
      .ok (.Map [("x", ⟨"1"⟩), ("y", ⟨"2"⟩)]) ∧
    lookupA (insertAll [("x", (⟨"1"⟩ : ConfigValue))] [("y", ⟨"2"⟩)]) "y" = some ⟨"2"⟩ ∧
    Config.merge (.Single ⟨"1"⟩) (.Single ⟨"2"⟩) "k" = .ok (.Single ⟨"2"⟩) := by
  have h := config_merge_spec [("x", ⟨"1"⟩)] [("y", ⟨"2"⟩)] "k" "y" ⟨"1"⟩ ⟨"2"⟩ (by decide)
  exact ⟨by decide, h.1, h.2.1.trans (by decide), h.2.2⟩

/-- C5: merging a Map config with a Single config, in either order, always
fails with IncompatibleConfigType carrying the key the merge was attempted
under, and never picks one side. -/
theorem config_merge_incompatible (m : AList ConfigValue) (v : ConfigValue) (key : String) :
    Config.merge (.Map m) (.Single v) key = .error (.IncompatibleConfigType key) ∧
    Config.merge (.Single v) (.Map m) key = .error (.IncompatibleConfigType key) :=
  ⟨rfl, rfl⟩

/-- C6: deserialization accepts every scalar, never fails, and stores the
scalar's string form; serialization trial-parses the stored string as
unsigned integer, then signed integer, then float, then boolean, in that
fixed order, emitting a string only when all fail — so "42" re-emits as an
unsigned integer, "3.14" as a float, "true" as a boolean, "abc" as a
string. -/
theorem config_value_roundtrip (s : Scalar) (v : ConfigValue) (n : Nat) (i : Int) (b : Bool) :
    ConfigValue.deserialize s = .ok ⟨s.to_string⟩ ∧
    (parse_u64 v.val = some n → v.serialize = .U64 n) ∧
    (parse_u64 v.val = none → parse_i64 v.val = some i → v.serialize = .I64 i) ∧
    (parse_u64 v.val = none → parse_i64 v.val = none → parses_f64 v.val = true →
      v.serialize = .F64 v.val) ∧
    (parse_u64 v.val = none → parse_i64 v.val = none → parses_f64 v.val = false →
      parse_bool v.val = some b → v.serialize = .Bool b) ∧
    (parse_u64 v.val = none → parse_i64 v.val = none → parses_f64 v.val = false →
      parse_bool v.val = none → v.serialize = .Str v.val) ∧
    ConfigValue.serialize ⟨"42"⟩ = .U64 42 ∧
    ConfigValue.serialize ⟨"3.14"⟩ = .F64 "3.14" ∧
    ConfigValue.serialize ⟨"true"⟩ = .Bool true ∧
    ConfigValue.serialize ⟨"abc"⟩ = .Str "abc" := by
  refine ⟨rfl, ?_, ?_, ?_, ?_, ?_, by decide, by decide, by decide, by decide⟩
  · intro h1
    simp [ConfigValue.serialize, h1]
  · intro h1 h2
    simp [ConfigValue.serialize, h1, h2]
  · intro h1 h2 h3
    simp [ConfigValue.serialize, h1, h2, h3]
  · intro h1 h2 h3 h4
    simp [ConfigValue.serialize, h1, h2, h3, h4]
  · intro h1 h2 h3 h4
    simp [ConfigValue.serialize, h1, h2, h3, h4]

/-- Witness for C6 at a concrete scalar. -/
theorem config_value_roundtrip_witness :
    parse_u64 "42" = some 42 ∧ ConfigValue.serialize ⟨"42"⟩ = .U64 42 := by
  have h := config_value_roundtrip (.SStr "x") ⟨"42"⟩ 42 0 false
  exact ⟨by decide, h.2.1 (by decide)⟩

/-- C7: entry and token validation matches against `valid` by
case-insensitive equality of the long aliases or of the short aliases,
replacing a match by the canonical entry from `valid`; an entry or token
matching nothing makes the whole operation (validate_and_normalize or
entries_to_run) fail with InvalidRunnerEntry carrying the offending name,
with no partial result. -/
theorem runner_validation_spec (r : Runner) :
    (∀ entry c, r.validate_entry entry = .ok c →
      c ∈ r.valid ∧
      (lowerStr entry.long = lowerStr c.long ∨ lowerStr entry.short = lowerStr c.short)) ∧
    (∀ entry err, r.validate_entry entry = .error err →
      err = .InvalidRunnerEntry entry.long ∧
      ∀ v ∈ r.valid, lowerStr entry.long ≠ lowerStr v.long ∧
        lowerStr entry.short ≠ lowerStr v.short) ∧
    (∀ e₀, findE (fun d => !(isOkE (r.validate_entry d))) r.default = some e₀ →
      r.validate_and_normalize = .error (.InvalidRunnerEntry e₀.long)) ∧
    ((∀ d ∈ r.default, isOkE (r.validate_entry d)) →
      r.validate_and_normalize =
        .ok ⟨r.valid, r.default.filterMap (fun d => toOptE (r.validate_entry d))⟩) ∧
    (∀ args a₀,
      findE (fun a => !(isOkE (r.validate_entry (RunnerEntry.from_str (tokenName a))))) args
        = some a₀ →
      r.entries_to_run args = .error (.InvalidRunnerEntry (tokenName a₀))) := by
  refine ⟨?_, ?_, ?_, ?_, ?_⟩
  · intro entry c h
    unfold Runner.validate_entry at h
    split at h
    · rename_i v hfind
      injection h with h
      subst h
      have hp := List.find?_some hfind
      simp only [Bool.or_eq_true, beq_iff_eq] at hp
      exact ⟨List.mem_of_find?_eq_some hfind, hp⟩
    · exact Except.noConfusion h
  · intro entry err h
    refine ⟨validate_entry_error_eq r entry err h, ?_⟩
    unfold Runner.validate_entry at h
    split at h
    · exact Except.noConfusion h
    · rename_i hfind
      intro v hv
      have hall := List.find?_eq_none.mp hfind v hv
      simp only [Bool.or_eq_true, beq_iff_eq, not_or] at hall
      exact hall
  · intro e₀ hfind
    obtain ⟨e, he, hm⟩ := mapME_error_first (fun d => r.validate_entry d) r.default e₀ hfind
    have heq := validate_entry_error_eq r e₀ e he
    unfold Runner.validate_and_normalize
    rw [hm, heq]
  · intro hall
    unfold Runner.validate_and_normalize
    rw [mapME_ok_of_all (fun d => r.validate_entry d) r.default hall]
  · intro args a₀ hfind
    have hfe : (fun a => !(isOkE ((fun arg =>
        match r.validate_entry (RunnerEntry.from_str (tokenName arg)) with
        | .error e => .error e
        | .ok entry => .ok (tokenSign arg, entry)) a))) =
        (fun a => !(isOkE (r.validate_entry (RunnerEntry.from_str (tokenName a))))) := by
      funext a
      cases hv : r.validate_entry (RunnerEntry.from_str (tokenName a)) <;>
        simp [hv, isOkE]
    rw [← hfe] at hfind
    obtain ⟨e, he, hm⟩ := mapME_error_first _ args a₀ hfind
    have hval : r.validate_entry (RunnerEntry.from_str (tokenName a₀)) = .error e := by
      cases hv : r.validate_entry (RunnerEntry.from_str (tokenName a₀)) with
      | error e' =>
        simp only [hv] at he
        injection he with he
        rw [he]
      | ok entry =>
        simp only [hv] at he
        exact Except.noConfusion he
    have heq := validate_entry_error_eq r (RunnerEntry.from_str (tokenName a₀)) e hval
    unfold Runner.entries_to_run
    rw [hm, heq]
    rfl

/-- Witness for C7 at a concrete invalid token. -/
theorem runner_validation_spec_witness :
    findE (fun a => !(isOkE ((Runner.mk [⟨"test", "t"⟩] []).validate_entry
      (RunnerEntry.from_str (tokenName a))))) ["bad"] = some "bad" ∧
    (Runner.mk [⟨"test", "t"⟩] []).entries_to_run ["bad"] =
      .error (.InvalidRunnerEntry "bad") := by
  refine ⟨by decide, ?_⟩
  exact (runner_validation_spec (Runner.mk [⟨"test", "t"⟩] [])).2.2.2.2 ["bad"] "bad"
    (by decide)

/-- C8: Application::merge keeps self unchanged when the other config is
absent, adopts a copy of the other config when self's is absent, and
otherwise merges key by key — going through Config::merge on keys present
on both sides (propagating its error) and inserting the other side's value
on keys new to self — leaving keys present only in self untouched. -/
theorem application_merge_spec (a r : Application) (c sc oc : AList Config)
    (e : ProjectError) (ho : (keysA oc).Nodup) :
    Application.merge a ⟨none⟩ = .ok a ∧
    Application.merge ⟨none⟩ ⟨some c⟩ = .ok ⟨some c⟩ ∧
    (Application.merge ⟨some sc⟩ ⟨some oc⟩ = .ok r →
      ∃ mc, r = ⟨some mc⟩ ∧ ∀ k,
        (lookupA oc k = none → lookupA mc k = lookupA sc k) ∧
        (∀ ov, lookupA oc k = some ov → lookupA sc k = none → lookupA mc k = some ov) ∧
        (∀ ov sv, lookupA oc k = some ov → lookupA sc k = some sv →
          ∃ v, Config.merge sv ov k = .ok v ∧ lookupA mc k = some v)) ∧
    (Application.merge ⟨some sc⟩ ⟨some oc⟩ = .error e →
      ∃ k sv ov, lookupA oc k = some ov ∧ lookupA sc k = some sv ∧
        Config.merge sv ov k = .error e) := by
  refine ⟨rfl, rfl, ?_, ?_⟩
  · intro h
    simp only [Application.merge] at h
    split at h
    · exact Except.noConfusion h
    · rename_i mc hmk
      injection h with h
      exact ⟨mc, h.symm,
        fun k => mergeByKey_ok_lookup (fun key sv ov => Config.merge sv ov key)
          oc sc mc ho hmk k⟩
  · intro h
    simp only [Application.merge] at h
    split at h
    · rename_i e' hmk
      injection h with h
      subst h
      exact mergeByKey_error (fun key sv ov => Config.merge sv ov key) oc sc e' ho hmk
    · exact Except.noConfusion h

/-- Witness for C8: an absent self config adopts the other side's map. -/
theorem application_merge_spec_witness :
    (keysA [("a", Config.Single (⟨"2"⟩ : ConfigValue))]).Nodup ∧
    Application.merge ⟨none⟩ ⟨some [("a", Config.Single ⟨"2"⟩)]⟩ =
      .ok ⟨some [("a", Config.Single ⟨"2"⟩)]⟩ := by
  refine ⟨by decide, ?_⟩
  exact (application_merge_spec ⟨none⟩ ⟨none⟩ [("a", Config.Single ⟨"2"⟩)] []
    [("a", Config.Single ⟨"2"⟩)] (.IncompatibleConfigType "x") (by decide)).2.1

/-- C9: a successful Project::merge keeps name, description, language,
container and umbrella from the root, takes `runner.valid` from the root
only, and clears `include` and `included` on the output; the merge is a
pure function of the input (the Rust method takes `&self` and builds a
fresh value), so the root and its includes are left unmodified. -/
theorem project_merge_frame (p q : Project) (h : p.merge = .ok q) :
    q.name = p.name ∧ q.description = p.description ∧ q.language = p.language ∧
    q.container = p.container ∧ q.umbrella = p.umbrella ∧
    q.runner.valid = p.runner.valid ∧ q.includePaths = [] ∧ q.included = none := by
  obtain ⟨app, apps, runner, _, _, hrun, hq⟩ := project_merge_ok_inv p q h
  subst hq
  exact ⟨rfl, rfl, rfl, rfl, rfl,
    validate_and_normalize_valid ⟨p.runner.valid, chosenDefault p⟩ runner hrun, rfl, rfl⟩

/-- Witness for C9 at a concrete project with a nonempty include list. -/
theorem project_merge_frame_witness :
    (Project.mk "w" (some "d") none .Docker true ["x.yml"] none ⟨none⟩ none
      ⟨[], []⟩).merge =
      .ok (Project.mk "w" (some "d") none .Docker true [] none ⟨none⟩ none ⟨[], []⟩) ∧
    (Project.mk "w" (some "d") none .Docker true [] none ⟨none⟩ none
      ⟨[], []⟩).includePaths = [] := by
  refine ⟨by decide, ?_⟩
  exact (project_merge_frame
    (Project.mk "w" (some "d") none .Docker true ["x.yml"] none ⟨none⟩ none ⟨[], []⟩)
    (Project.mk "w" (some "d") none .Docker true [] none ⟨none⟩ none ⟨[], []⟩)
    (by decide)).2.2.2.2.2.2.1

/-- C10: Config::merge and Application::merge are atomic on failure — both
assign to the receiver only after the whole merged value is computed, and
the error return fires before that assignment, so a failing merge leaves
the receiver's post-state equal to its original value even when earlier
keys had merged successfully. -/
theorem merge_atomic_on_error (c o : Config) (key : String) (a b : Application)
    (e e' : ProjectError) :
    (Config.merge c o key = .error e → Config.mergePost c o key = c) ∧
    (Application.merge a b = .error e' → Application.mergePost a b = a) := by
  constructor
  · intro h
    unfold Config.mergePost
    rw [h]
  · intro h
    unfold Application.mergePost
    rw [h]

/-- Witness for C10: the first key merges successfully but the second fails
with IncompatibleConfigType, and the post-state is the untouched
receiver. -/
theorem merge_atomic_on_error_witness :
    Application.merge ⟨some [("a", .Single ⟨"1"⟩), ("b", .Single ⟨"2"⟩)]⟩
        ⟨some [("a", .Single ⟨"9"⟩), ("b", .Map [])]⟩ =
      .error (.IncompatibleConfigType "b") ∧
    Application.mergePost ⟨some [("a", .Single ⟨"1"⟩), ("b", .Single ⟨"2"⟩)]⟩
        ⟨some [("a", .Single ⟨"9"⟩), ("b", .Map [])]⟩ =
      ⟨some [("a", .Single ⟨"1"⟩), ("b", .Single ⟨"2"⟩)]⟩ := by
  refine ⟨by decide, ?_⟩
  exact (merge_atomic_on_error (.Single ⟨"1"⟩) (.Map []) "b"
    ⟨some [("a", .Single ⟨"1"⟩), ("b", .Single ⟨"2"⟩)]⟩
    ⟨some [("a", .Single ⟨"9"⟩), ("b", .Map [])]⟩
    (.IncompatibleConfigType "b") (.IncompatibleConfigType "b")).2 (by decide)

end Onyx
